import Mathlib

/-!
Verification of `create_archive.py` (ServicePro_v3): a tool that packages a
subset of a project tree into a zip archive, excluding paths that contain any
of a fixed list of substring patterns.

The embedding is shallow: the filesystem is a snapshot (`FS` resolves each
root string to a file, a directory tree, or nothing), `os.walk` with the
in-place pruning of `dirs[:]` becomes the mutual recursion
`walkDir`/`walkSub`, and each `zipf.write(file_path, file_path)` call becomes
one emitted path (the archive name is the same expression as the path in the
source).  Strings are Lean `String`s; Python's substring test `exclude in
path_str` is `containsL` on the underlying character lists.
-/

namespace ServicePro

/-- Initial-run test: `startsL pre s` is true iff `pre` begins `s`. -/
def startsL : List Char → List Char → Bool
  | [], _ => true
  | _ :: _, [] => false
  | a :: as, b :: bs => a == b && startsL as bs

/-- Substring test: `containsL pat hay` is Python's `pat in hay`. -/
def containsL (pat : List Char) : List Char → Bool
  | [] => startsL pat []
  | c :: t => startsL pat (c :: t) || containsL pat t

/-- String form: `strContains hay pat` holds iff the pattern occurs inside `hay`. -/
def strContains (hay pat : String) : Bool :=
  containsL pat.data hay.data

/-- The exclusion rule list of `should_exclude` (source lines 8-15). -/
def excludes : List String :=
  ["node_modules", ".git", "dist", "build", ".config",
   "attached_assets", "public/uploads", "public/tech_profiles",
   "public/images", "public/assets", "server/tests",
   ".jpg", ".jpeg", ".png", ".gif", ".svg", ".webp", ".ico",
   ".pdf", ".xlsx", ".docx", ".txt", ".mp4", ".mov",
   ".tar.gz", ".zip", ".log"]

/-- The `for exclude in excludes` loop with its early `return True`
(source lines 17-20). -/
def exclLoop (path_str : String) : List String → Bool
  | [] => false
  | e :: rest => if strContains path_str e then true else exclLoop path_str rest

/-- Source lines 6-20, `should_exclude`: true iff some configured pattern
occurs as a substring of the path string. -/
def should_exclude (path_str : String) : Bool :=
  exclLoop path_str excludes

/-- A filesystem subtree: a named regular file or a named directory with an
ordered child list (the order `os.scandir`, hence `os.walk`, reports). -/
inductive FSTree where
  | file (name : String)
  | dir (name : String) (children : List FSTree)

/-- What a root inclusion string resolves to: `Path(inc).is_file()`,
`Path(inc).is_dir()` with its subtree, or neither. -/
inductive Resolved where
  | file
  | dir (children : List FSTree)
  | missing

/-- A filesystem snapshot: how root strings resolve, and the byte content
read when a path is written into the archive. -/
structure FS where
  resolve : String → Resolved
  content : String → String

/-- POSIX `os.path.join` for the path strings this tool produces. -/
def pjoin (a b : String) : String := a ++ "/" ++ b

/-- The `for file in files` loop of one walk level (source lines 53-57):
each non-excluded regular file of this directory, as `os.path.join(root, file)`. -/
def filesHere (root : String) (children : List FSTree) : List String :=
  children.filterMap fun t =>
    match t with
    | .file n => if should_exclude (pjoin root n) then none else some (pjoin root n)
    | .dir _ _ => none

mutual

/-- One `os.walk` level at directory `root` with child list `children`
(source lines 49-57): prune excluded subdirectories, emit the surviving
files of this level, then descend into the kept subdirectories in order. -/
def walkDir (root : String) (children : List FSTree) : List String :=
  filesHere root children ++ walkSub root children
termination_by (sizeOf children, 1)
decreasing_by omega

/-- Descent into the subdirectories that survived the `dirs[:]` filter
(source line 51): an excluded subdirectory is never entered. -/
def walkSub (root : String) : List FSTree → List String
  | [] => []
  | .file _ :: rest => walkSub root rest
  | .dir n cs :: rest =>
      (if should_exclude (pjoin root n) then [] else walkDir (pjoin root n) cs)
        ++ walkSub root rest
termination_by l => (sizeOf l, 0)
decreasing_by
  all_goals simp_wf
  all_goals omega

end

/-- Processing of one root inclusion entry (source lines 41-57): a file root
is written iff not excluded; a directory root is walked; anything else is
silently skipped. -/
def processRootNames (fs : FS) (inc : String) : List String :=
  match fs.resolve inc with
  | .file => if should_exclude inc then [] else [inc]
  | .dir cs => walkDir inc cs
  | .missing => []

/-- All paths written over the whole root list, in emission order. -/
def createZipNames (fs : FS) (incs : List String) : List String :=
  match incs with
  | [] => []
  | inc :: rest => processRootNames fs inc ++ createZipNames fs rest

/-- The `(filesystem path, archive name)` pairs of the `zipf.write(path, path)`
calls: the archive name is the very path string used to locate the file. -/
def createZipPairs (fs : FS) (incs : List String) : List (String × String) :=
  (createZipNames fs incs).map fun p => (p, p)

/-- The archive content: each entry stores the bytes read at its path. -/
def archiveEntries (fs : FS) (incs : List String) : List (String × String) :=
  (createZipNames fs incs).map fun p => (p, fs.content p)

/-- The fixed root inclusion list of `create_zip` (source lines 27-38). -/
def includes : List String :=
  ["client/src", "server", "shared/schema.ts", "package.json",
   "tsconfig.json", "drizzle.config.ts", "tailwind.config.ts",
   "components.json", "vite.config.ts", "postcss.config.js"]

/-- The fixed output archive name (source line 24). -/
def zip_filename : String := "clean-machine-core.zip"

/-! ### The substring test -/

theorem startsL_iff (a b : List Char) : startsL a b = true ↔ ∃ t, a ++ t = b := by
  induction a generalizing b with
  | nil => simp [startsL]
  | cons x xs ih =>
    cases b with
    | nil => simp [startsL]
    | cons y ys =>
      simp only [startsL, Bool.and_eq_true, beq_iff_eq, ih]
      constructor
      · rintro ⟨rfl, t, rfl⟩
        exact ⟨t, rfl⟩
      · rintro ⟨t, h⟩
        injection h with h1 h2
        exact ⟨h1, t, h2⟩

theorem containsL_iff (pat hay : List Char) :
    containsL pat hay = true ↔ ∃ pre post, pre ++ (pat ++ post) = hay := by
  induction hay with
  | nil =>
    simp only [containsL, startsL_iff]
    constructor
    · rintro ⟨t, h⟩
      exact ⟨[], t, h⟩
    · rintro ⟨pre, post, h⟩
      rcases List.append_eq_nil.mp h with ⟨rfl, h2⟩
      exact ⟨post, h2⟩
  | cons c t ih =>
    simp only [containsL, Bool.or_eq_true, startsL_iff, ih]
    constructor
    · rintro (⟨s, h⟩ | ⟨pre, post, h⟩)
      · exact ⟨[], s, h⟩
      · exact ⟨c :: pre, post, by rw [List.cons_append, h]⟩
    · rintro ⟨pre, post, h⟩
      cases pre with
      | nil => exact Or.inl ⟨post, h⟩
      | cons p ps =>
        injection h with h1 h2
        exact Or.inr ⟨ps, post, h2⟩

theorem strContains_iff (hay pat : String) :
    strContains hay pat = true ↔ ∃ pre post, pre ++ (pat.data ++ post) = hay.data := by
  exact containsL_iff pat.data hay.data

theorem exclLoop_eq_any (p : String) (l : List String) :
    exclLoop p l = l.any fun e => strContains p e := by
  induction l with
  | nil => rfl
  | cons e rest ih =>
    simp only [exclLoop, List.any_cons, ih]
    cases strContains p e <;> simp

theorem anyPermEq {α : Type} (f : α → Bool) {l l' : List α} (h : l.Perm l') :
    l.any f = l'.any f := by
  apply Bool.eq_iff_iff.mpr
  simp only [List.any_eq_true]
  constructor
  · rintro ⟨x, hx, hfx⟩
    exact ⟨x, h.mem_iff.mp hx, hfx⟩
  · rintro ⟨x, hx, hfx⟩
    exact ⟨x, h.mem_iff.mpr hx, hfx⟩

theorem substring_exclusion_iff (p : String) :
    should_exclude p = true ↔
      ∃ e ∈ excludes, ∃ pre post, pre ++ (e.data ++ post) = p.data := by
  unfold should_exclude
  rw [exclLoop_eq_any, List.any_eq_true]
  constructor
  · rintro ⟨e, he, hc⟩
    exact ⟨e, he, (strContains_iff p e).mp hc⟩
  · rintro ⟨e, he, hc⟩
    exact ⟨e, he, (strContains_iff p e).mpr hc⟩

/-- C1: `should_exclude(p)` is true iff at least one configured exclusion
pattern occurs as a substring anywhere in `p`, and false otherwise; it is a
pure function of `p` and the static rule set `excludes`. -/
theorem should_exclude_iff_substring (p : String) :
    should_exclude p = true ↔
      ∃ e ∈ excludes, ∃ pre post, pre ++ (e.data ++ post) = p.data :=
  substring_exclusion_iff p

/-- C1 witness: `"server/tests/foo.ts"` is excluded because the pattern
`"server/tests"` occurs in it. -/
theorem should_exclude_iff_substring_witness :
    should_exclude "server/tests/foo.ts" = true :=
  (should_exclude_iff_substring "server/tests/foo.ts").mpr
    ⟨"server/tests", by decide, [], "/foo.ts".data, by decide⟩

/-- C6: evaluating the exclusion loop with any permutation of the rule list
gives the same result as `should_exclude` with the original list: the early
return on the first match notwithstanding, the result is an existence check,
so rule order is irrelevant. -/
theorem exclLoop_perm_invariant (p : String) (l : List String)
    (h : excludes.Perm l) : exclLoop p l = should_exclude p := by
  unfold should_exclude
  rw [exclLoop_eq_any, exclLoop_eq_any]
  exact (anyPermEq _ h).symm

/-- C6 witness: the reversed rule list gives the same verdict on a concrete
path. -/
theorem exclLoop_perm_invariant_witness :
    exclLoop "client/src/app.tsx" excludes.reverse
      = should_exclude "client/src/app.tsx" :=
  exclLoop_perm_invariant "client/src/app.tsx" excludes.reverse
    excludes.reverse_perm.symm

/-! ### Exclusion is monotone under substring extension

With substring matching, any pattern found in `a` is also found in every
string that contains `a`. -/

theorem should_exclude_mono {a b : String} (h : should_exclude a = true)
    (hab : ∃ pre post, pre ++ (a.data ++ post) = b.data) :
    should_exclude b = true := by
  rcases (substring_exclusion_iff a).mp h with ⟨e, he, pre1, post1, h1⟩
  rcases hab with ⟨pre, post, h2⟩
  refine (substring_exclusion_iff b).mpr ⟨e, he, pre ++ pre1, post1 ++ post, ?_⟩
  rw [← h2, ← h1]
  simp [List.append_assoc]

/-! ### Every emitted path survives the exclusion predicate -/

theorem mem_filesHere {root : String} {cs : List FSTree} {p : String}
    (h : p ∈ filesHere root cs) :
    ∃ n, FSTree.file n ∈ cs ∧ p = pjoin root n ∧ should_exclude p = false := by
  rcases List.mem_filterMap.mp h with ⟨t, ht, hf⟩
  cases t with
  | file n =>
    by_cases hx : should_exclude (pjoin root n) = true
    · simp [hx] at hf
    · simp only [Bool.not_eq_true] at hx
      simp [hx] at hf
      exact ⟨n, ht, hf.symm, hf ▸ hx⟩
  | dir n cs' => simp at hf

theorem walkSub_not_excluded :
    ∀ (root : String) (l : List FSTree), ∀ p ∈ walkSub root l,
      should_exclude p = false := by
  refine walkSub.induct
    (fun root cs => ∀ p ∈ walkDir root cs, should_exclude p = false)
    (fun root l => ∀ p ∈ walkSub root l, should_exclude p = false)
    ?_ ?_ ?_ ?_
  · intro root cs ih p hp
    rw [walkDir] at hp
    rcases List.mem_append.mp hp with h | h
    · exact (mem_filesHere h).choose_spec.2.2
    · exact ih p h
  · intro root p hp
    simp [walkSub] at hp
  · intro root name rest ih p hp
    rw [walkSub] at hp
    exact ih p hp
  · intro root n cs rest ih1 ih2 p hp
    rw [walkSub] at hp
    rcases List.mem_append.mp hp with h | h
    · by_cases hx : should_exclude (pjoin root n) = true
      · simp [hx] at h
      · simp only [Bool.not_eq_true] at hx
        rw [if_neg (by simp [hx])] at h
        exact ih1 p h
    · exact ih2 p h

theorem walkDir_not_excluded (root : String) (cs : List FSTree) :
    ∀ p ∈ walkDir root cs, should_exclude p = false := by
  intro p hp
  rw [walkDir] at hp
  rcases List.mem_append.mp hp with h | h
  · exact (mem_filesHere h).choose_spec.2.2
  · exact walkSub_not_excluded root cs p h

theorem createZipNames_not_excluded (fs : FS) (incs : List String) :
    ∀ p ∈ createZipNames fs incs, should_exclude p = false := by
  induction incs with
  | nil => simp [createZipNames]
  | cons inc rest ih =>
    intro p hp
    rw [createZipNames] at hp
    rcases List.mem_append.mp hp with h | h
    · unfold processRootNames at h
      cases hres : fs.resolve inc <;> rw [hres] at h
      · by_cases hx : should_exclude inc = true
        · simp [hx] at h
        · simp only [Bool.not_eq_true] at hx
          rw [if_neg (by simp [hx])] at h
          rcases List.mem_singleton.mp h with rfl
          exact hx
      · exact walkDir_not_excluded inc _ p h
      · simp at h
    · exact ih p h

/-! ### All file paths of a subtree (no exclusion applied) -/

mutual

/-- Every regular-file path inside one subtree rooted below `root`. -/
def filePathsT (root : String) : FSTree → List String
  | .file n => [pjoin root n]
  | .dir n cs => filePathsL (pjoin root n) cs

/-- Every regular-file path inside a list of subtrees below `root`. -/
def filePathsL (root : String) : List FSTree → List String
  | [] => []
  | t :: ts => filePathsT root t ++ filePathsL root ts

end

/-- Every regular-file path reachable from one root entry, exclusion ignored. -/
def rootFilePaths (fs : FS) (inc : String) : List String :=
  match fs.resolve inc with
  | .file => [inc]
  | .dir cs => filePathsL inc cs
  | .missing => []

/-- Every regular-file path reachable from the root list, exclusion ignored. -/
def allFilePaths (fs : FS) (incs : List String) : List String :=
  match incs with
  | [] => []
  | inc :: rest => rootFilePaths fs inc ++ allFilePaths fs rest

theorem filePathsT_subset_filePathsL {root : String} {t : FSTree}
    {cs : List FSTree} (h : t ∈ cs) :
    ∀ p ∈ filePathsT root t, p ∈ filePathsL root cs := by
  induction cs with
  | nil => cases h
  | cons c rest ih =>
    intro p hp
    rw [filePathsL]
    rcases List.mem_cons.mp h with rfl | h'
    · exact List.mem_append.mpr (Or.inl hp)
    · exact List.mem_append.mpr (Or.inr (ih h' p hp))

theorem walkSub_subset_filePaths :
    ∀ (root : String) (l : List FSTree), ∀ p ∈ walkSub root l,
      p ∈ filePathsL root l := by
  refine walkSub.induct
    (fun root cs => ∀ p ∈ walkDir root cs, p ∈ filePathsL root cs)
    (fun root l => ∀ p ∈ walkSub root l, p ∈ filePathsL root l)
    ?_ ?_ ?_ ?_
  · intro root cs ih p hp
    rw [walkDir] at hp
    rcases List.mem_append.mp hp with h | h
    · rcases mem_filesHere h with ⟨n, hn, rfl, -⟩
      exact filePathsT_subset_filePathsL hn _ (by simp [filePathsT])
    · exact ih p h
  · intro root p hp
    simp [walkSub] at hp
  · intro root name rest ih p hp
    rw [walkSub] at hp
    rw [filePathsL]
    exact List.mem_append.mpr (Or.inr (ih p hp))
  · intro root n cs rest ih1 ih2 p hp
    rw [walkSub] at hp
    rw [filePathsL]
    rcases List.mem_append.mp hp with h | h
    · by_cases hx : should_exclude (pjoin root n) = true
      · simp [hx] at h
      · simp only [Bool.not_eq_true] at hx
        rw [if_neg (by simp [hx])] at h
        exact List.mem_append.mpr (Or.inl (ih1 p h))
    · exact List.mem_append.mpr (Or.inr (ih2 p h))

theorem walkDir_subset_filePaths (root : String) (cs : List FSTree) :
    ∀ p ∈ walkDir root cs, p ∈ filePathsL root cs := by
  intro p hp
  rw [walkDir] at hp
  rcases List.mem_append.mp hp with h | h
  · rcases mem_filesHere h with ⟨n, hn, rfl, -⟩
    exact filePathsT_subset_filePathsL hn _ (by simp [filePathsT])
  · exact walkSub_subset_filePaths root cs p h

theorem createZipNames_subset_filePaths (fs : FS) (incs : List String) :
    ∀ p ∈ createZipNames fs incs, p ∈ allFilePaths fs incs := by
  induction incs with
  | nil => simp [createZipNames]
  | cons inc rest ih =>
    intro p hp
    rw [createZipNames] at hp
    rw [allFilePaths]
    rcases List.mem_append.mp hp with h | h
    · refine List.mem_append.mpr (Or.inl ?_)
      unfold processRootNames at h
      unfold rootFilePaths
      cases hres : fs.resolve inc <;> rw [hres] at h
      · have h' : p ∈ (if should_exclude inc = true then ([] : List String) else [inc]) := h
        show p ∈ [inc]
        by_cases hx : should_exclude inc = true
        · simp [hx] at h'
        · simp only [Bool.not_eq_true] at hx
          rw [if_neg (by simp [hx])] at h'
          exact h'
      · exact walkDir_subset_filePaths inc _ p h
      · have h' : p ∈ ([] : List String) := h
        simp at h'
    · exact List.mem_append.mpr (Or.inr (ih p h))

/-! ### Concrete snapshots used by the witnesses -/

/-- Concrete tree: `server/` holds `index.ts` plus a `tests` directory
holding `foo.ts`. -/
def sampleTree : List FSTree :=
  [FSTree.file "index.ts", FSTree.dir "tests" [FSTree.file "foo.ts"]]

/-- Concrete snapshot: only the root string `"server"` exists. -/
def sampleFS : FS where
  resolve := fun s => if s = "server" then Resolved.dir sampleTree else Resolved.missing
  content := fun _ => "bytes"

/-- A second snapshot with the same fields as `sampleFS`. -/
def sampleFS2 : FS where
  resolve := fun s => if s = "server" then Resolved.dir sampleTree else Resolved.missing
  content := fun _ => "bytes"

/-- Concrete snapshot: only the root string `"package.json"` exists, a file. -/
def pkgFS : FS where
  resolve := fun s => if s = "package.json" then Resolved.file else Resolved.missing
  content := fun _ => "pkg"

/-! ### The claims about traversal output -/

/-- C2: no file lying under a directory whose path satisfies the exclusion
predicate is ever written to the archive: an emitted path never extends an
excluded directory path (with substring matching, such a file inherits the
match, and the `dirs[:]` filter prunes the subtree anyway). -/
theorem no_file_under_excluded_dir (fs : FS) (incs : List String)
    (d p : String) (hd : should_exclude d = true)
    (hp : p ∈ createZipNames fs incs) :
    startsL (d ++ "/").data p.data = false := by
  by_contra hc
  rw [Bool.not_eq_false] at hc
  rcases (startsL_iff _ _).mp hc with ⟨t, ht⟩
  have hsub : should_exclude p = true := by
    apply should_exclude_mono hd
    refine ⟨[], '/' :: t, ?_⟩
    rw [List.nil_append, ← ht, String.data_append]
    have hslash : "/".data = ['/'] := rfl
    rw [hslash]
    simp
  have hnot := createZipNames_not_excluded fs incs p hp
  rw [hnot] at hsub
  exact Bool.false_ne_true hsub

/-- C2 witness: `"server/tests"` is excluded, and the emitted entry
`"server/index.ts"` does not lie under it. -/
theorem no_file_under_excluded_dir_witness :
    startsL ("server/tests" ++ "/").data "server/index.ts".data = false :=
  no_file_under_excluded_dir sampleFS ["server"] "server/tests" "server/index.ts"
    (by decide)
    (by simp +decide [createZipNames, processRootNames, sampleFS, sampleTree,
          walkDir, walkSub, filesHere, pjoin])

/-- C9: every archived name still passes the exclusion predicate; the
archive's own fixed name is itself excluded (".zip" is a configured
pattern), so a previously produced archive encountered anywhere in the
traversal is never added. -/
theorem archive_excludes_itself (fs : FS) (incs : List String) :
    (∀ p ∈ createZipNames fs incs, should_exclude p = false) ∧
    should_exclude zip_filename = true ∧
    ∀ p, strContains p zip_filename = true → p ∉ createZipNames fs incs := by
  refine ⟨createZipNames_not_excluded fs incs, by decide, ?_⟩
  intro p hc hp
  have hx : should_exclude p = true :=
    should_exclude_mono (by decide) ((strContains_iff p zip_filename).mp hc)
  have hnot := createZipNames_not_excluded fs incs p hp
  rw [hnot] at hx
  exact Bool.false_ne_true hx

/-- C9 witness: the archive name itself is never an emitted entry. -/
theorem archive_excludes_itself_witness :
    "clean-machine-core.zip" ∉ createZipNames sampleFS ["server"] :=
  (archive_excludes_itself sampleFS ["server"]).2.2 "clean-machine-core.zip"
    (by decide)

/-- C10: only regular files produce archive entries (every emitted name is
the path of a file node of the snapshot), and a directory root none of
whose contained files survives exclusion contributes no entry of any kind. -/
theorem only_files_archived (fs : FS) (incs : List String) :
    (∀ p ∈ createZipNames fs incs, p ∈ allFilePaths fs incs) ∧
    (∀ r cs, fs.resolve r = Resolved.dir cs →
      (∀ q ∈ filePathsL r cs, should_exclude q = true) →
      processRootNames fs r = []) := by
  refine ⟨createZipNames_subset_filePaths fs incs, ?_⟩
  intro r cs hres hall
  unfold processRootNames
  rw [hres]
  rw [List.eq_nil_iff_forall_not_mem]
  intro p hp
  have h1 := walkDir_subset_filePaths r cs p hp
  have h2 := walkDir_not_excluded r cs p hp
  have h3 := hall p h1
  rw [h2] at h3
  exact Bool.false_ne_true h3

/-- C10 witness: the emitted entry of the sample snapshot is one of its
file paths. -/
theorem only_files_archived_witness :
    "server/index.ts" ∈ allFilePaths sampleFS ["server"] :=
  (only_files_archived sampleFS ["server"]).1 "server/index.ts"
    (by simp +decide [createZipNames, processRootNames, sampleFS, sampleTree,
          walkDir, walkSub, filesHere, pjoin])

/-- C4: a root naming an existing file has the exclusion predicate applied
to its own path string and is archived (under that very name) exactly when
the predicate is false; the root list `["package.json"]` with the file
present yields exactly the one entry `"package.json"`. -/
theorem file_root_behavior (fs : FS) (inc : String)
    (h : fs.resolve inc = Resolved.file) :
    processRootNames fs inc = (if should_exclude inc then [] else [inc]) ∧
    createZipNames fs [inc] = (if should_exclude inc then [] else [inc]) ∧
    (inc = "package.json" → createZipNames fs [inc] = ["package.json"]) := by
  have h1 : processRootNames fs inc = (if should_exclude inc then [] else [inc]) := by
    unfold processRootNames
    rw [h]
  refine ⟨h1, ?_, ?_⟩
  · rw [createZipNames, createZipNames, List.append_nil, h1]
  · rintro rfl
    rw [createZipNames, createZipNames, List.append_nil, h1]
    have hx : should_exclude "package.json" = false := by decide
    simp [hx]

/-- C4 witness: archiving the single existing file `package.json` yields
exactly that entry. -/
theorem file_root_behavior_witness :
    createZipNames pkgFS ["package.json"] = ["package.json"] :=
  (file_root_behavior pkgFS "package.json" (by simp [pkgFS])).2.2 rfl

theorem createZipNames_append (fs : FS) (l1 l2 : List String) :
    createZipNames fs (l1 ++ l2) = createZipNames fs l1 ++ createZipNames fs l2 := by
  induction l1 with
  | nil => simp [createZipNames]
  | cons a t ih => simp [createZipNames, ih]

/-- C5: a root naming neither an existing file nor directory contributes no
entries (the total embedding raises nothing), and the remaining roots and
the final entry list are exactly as if the entry were absent. -/
theorem missing_root_skipped (fs : FS) (r : String)
    (h : fs.resolve r = Resolved.missing) :
    processRootNames fs r = [] ∧
    ∀ l1 l2, createZipNames fs (l1 ++ r :: l2) = createZipNames fs (l1 ++ l2) := by
  have h0 : processRootNames fs r = [] := by
    unfold processRootNames
    rw [h]
  refine ⟨h0, ?_⟩
  intro l1 l2
  have hc : createZipNames fs (r :: l2) = createZipNames fs l2 := by
    rw [createZipNames, h0, List.nil_append]
  rw [createZipNames_append, createZipNames_append, hc]

/-- C5 witness: a missing root inserted after `"server"` changes nothing. -/
theorem missing_root_skipped_witness :
    createZipNames sampleFS (["server"] ++ "missing_dir" :: []) =
      createZipNames sampleFS (["server"] ++ []) :=
  (missing_root_skipped sampleFS "missing_dir" (by simp [sampleFS])).2 ["server"] []

theorem processRootNames_congr {fs fs' : FS} (h : fs.resolve = fs'.resolve)
    (inc : String) : processRootNames fs inc = processRootNames fs' inc := by
  unfold processRootNames
  rw [h]

theorem createZipNames_congr {fs fs' : FS} (h : fs.resolve = fs'.resolve)
    (incs : List String) : createZipNames fs incs = createZipNames fs' incs := by
  induction incs with
  | nil => rfl
  | cons a t ih => rw [createZipNames, createZipNames, ih, processRootNames_congr h]

/-- C7: the emitted (name, content) entries are a deterministic function of
the snapshot and the static root and rule lists: two runs over an unchanged
tree produce the same entry names and the same per-entry content. -/
theorem run_deterministic (fs fs' : FS) (incs : List String)
    (h1 : fs.resolve = fs'.resolve) (h2 : fs.content = fs'.content) :
    archiveEntries fs incs = archiveEntries fs' incs ∧
    createZipNames fs incs = createZipNames fs' incs := by
  have hn := createZipNames_congr h1 incs
  refine ⟨?_, hn⟩
  unfold archiveEntries
  rw [hn, h2]

/-- C7 witness: two identically-defined snapshots give identical archives. -/
theorem run_deterministic_witness :
    archiveEntries sampleFS ["server"] = archiveEntries sampleFS2 ["server"] :=
  (run_deterministic sampleFS sampleFS2 ["server"] rfl rfl).1

/-! ### Console reporting

`size / (1024*1024)` in Python is float division, but a division of an
integer below 2^53 by a power of two is exact, so the `:.2f` format prints
the exact rational value rounded to two decimals with ties to even.
`centiMB` is that number of hundredths of a megabyte (source lines 60-62). -/

/-- Hundredths of a megabyte: `size * 100 / 2^20` rounded to the nearest
integer, ties to even, as `f"{size / (1024*1024):.2f}"` prints it. -/
def centiMB (size : Nat) : Nat :=
  if 2 * (size * 100 % 1048576) < 1048576 then size * 100 / 1048576
  else if 1048576 < 2 * (size * 100 % 1048576) then size * 100 / 1048576 + 1
  else if (size * 100 / 1048576) % 2 = 0 then size * 100 / 1048576
  else size * 100 / 1048576 + 1

/-- Decimal rendering `X.YZ` of a count of hundredths. -/
def fmt2 (c : Nat) : String :=
  toString (c / 100) ++ "." ++ (if c % 100 < 10 then "0" else "") ++ toString (c % 100)

/-- The final summary line (source line 62). -/
def summaryLine (size : Nat) : String :=
  "\nCreated " ++ zip_filename ++ " (" ++ fmt2 (centiMB size) ++ " MB)"

/-- Everything `create_zip` prints, in order: one `Adding file:` line per
written file (source lines 46 and 56), then the summary (source line 62). -/
def consoleOutput (fs : FS) (incs : List String) (size : Nat) : List String :=
  ((createZipNames fs incs).map fun p => "Adding file: " ++ p) ++ [summaryLine size]

theorem centiMB_bounds (size : Nat) :
    size * 100 ≤ 1048576 * centiMB size + 524288 ∧
    1048576 * centiMB size ≤ size * 100 + 524288 := by
  unfold centiMB
  split_ifs <;> constructor <;> omega

/-- C8: the console output is one line per added file identifying that
file, followed by a single summary line whose megabyte figure is the byte
size divided by 1024*1024 rounded to two decimal places (the printed
hundredths-of-MB count differs from the exact ratio by at most half a
hundredth). -/
theorem console_report (fs : FS) (incs : List String) (size : Nat) :
    (consoleOutput fs incs size).length = (createZipNames fs incs).length + 1 ∧
    (∀ p ∈ createZipNames fs incs,
      ("Adding file: " ++ p) ∈ consoleOutput fs incs size) ∧
    (consoleOutput fs incs size).getLast? = some (summaryLine size) ∧
    size * 100 ≤ 1048576 * centiMB size + 524288 ∧
    1048576 * centiMB size ≤ size * 100 + 524288 := by
  refine ⟨by simp [consoleOutput], ?_, ?_, (centiMB_bounds size).1, (centiMB_bounds size).2⟩
  · intro p hp
    exact List.mem_append.mpr (Or.inl (List.mem_map.mpr ⟨p, hp, rfl⟩))
  · rw [consoleOutput]
    exact List.getLast?_concat _

/-- C8 witness: the sample run over `"server"` with a 1572864-byte archive
prints the line for its one file; 1572864 bytes is reported as 1.50 MB. -/
theorem console_report_witness :
    ("Adding file: " ++ "server/index.ts") ∈ consoleOutput sampleFS ["server"] 1572864 ∧
    summaryLine 1572864 = "\nCreated clean-machine-core.zip (1.50 MB)" :=
  ⟨(console_report sampleFS ["server"] 1572864).2.1 "server/index.ts"
    (by simp +decide [createZipNames, processRootNames, sampleFS, sampleTree,
          walkDir, walkSub, filesHere, pjoin]),
   by decide⟩

/-! ### Well-formed snapshots

A real directory never lists two children of the same name, and names never
contain the path separator.  Exactly-once emission is proved under this
well-formedness. -/

/-- The name of a child node. -/
def childName : FSTree → String
  | .file n => n
  | .dir n _ => n

mutual

/-- Well-formedness of a subtree: no name contains `'/'`, sibling names
never repeat. -/
def wfTree : FSTree → Prop
  | .file n => '/' ∉ n.data
  | .dir n cs => '/' ∉ n.data ∧ (cs.map childName).Nodup ∧ wfList cs

/-- Well-formedness of every tree of a list. -/
def wfList : List FSTree → Prop
  | [] => True
  | t :: ts => wfTree t ∧ wfList ts

end

/-- Well-formedness of the children of one directory. -/
def wfForest (cs : List FSTree) : Prop :=
  (cs.map childName).Nodup ∧ wfList cs

theorem wfList_mem {l : List FSTree} {t : FSTree} (hw : wfList l) (ht : t ∈ l) :
    wfTree t := by
  induction l with
  | nil => cases ht
  | cons a rest ih =>
    rw [wfList] at hw
    rcases List.mem_cons.mp ht with rfl | h'
    · exact hw.1
    · exact ih hw.2 h'

/-! ### Character-list facts about joined paths -/

theorem pjoin_data (a b : String) : (pjoin a b).data = a.data ++ '/' :: b.data := by
  unfold pjoin
  rw [String.data_append, String.data_append]
  have hslash : "/".data = ['/'] := rfl
  rw [hslash]
  simp

theorem cons_tail_inj {r x y : List Char} (h : r ++ '/' :: x = r ++ '/' :: y) :
    x = y := by
  have h2 := List.append_cancel_left h
  injection h2

theorem key_split : ∀ {a : List Char} {b x y : List Char}, '/' ∉ a → '/' ∉ b →
    a ++ '/' :: x = b ++ '/' :: y → a = b ∧ x = y := by
  intro a
  induction a with
  | nil =>
    intro b x y _ hb h
    cases b with
    | nil =>
      refine ⟨rfl, ?_⟩
      injection h
    | cons c bs =>
      injection h with h1 h2
      exact absurd (h1 ▸ List.mem_cons_self c bs) hb
  | cons c as ih =>
    intro b x y ha hb h
    cases b with
    | nil =>
      injection h with h1 h2
      exact absurd (h1 ▸ List.mem_cons_self c as) ha
    | cons d bs =>
      injection h with h1 h2
      have hres := ih (fun hm => ha (List.mem_cons_of_mem _ hm))
        (fun hm => hb (List.mem_cons_of_mem _ hm)) h2
      exact ⟨by rw [h1, hres.1], hres.2⟩

theorem append_overlap {α : Type} :
    ∀ (a b x y : List α), a ++ x = b ++ y →
      (∃ t, a ++ t = b) ∨ (∃ t, b ++ t = a) := by
  intro a
  induction a with
  | nil =>
    intro b x y _
    exact Or.inl ⟨b, rfl⟩
  | cons c as ih =>
    intro b x y h
    cases b with
    | nil => exact Or.inr ⟨c :: as, rfl⟩
    | cons d bs =>
      injection h with h1 h2
      rcases ih bs x y h2 with ⟨t, ht⟩ | ⟨t, ht⟩
      · exact Or.inl ⟨t, by rw [h1, List.cons_append, ht]⟩
      · exact Or.inr ⟨t, by rw [← h1, List.cons_append, ht]⟩

theorem snoc_inj {α : Type} {l1 l2 : List α} {a b : α}
    (h : l1 ++ [a] = l2 ++ [b]) : l1 = l2 ∧ a = b := by
  have hr := congrArg List.reverse h
  simp only [List.reverse_append, List.reverse_cons, List.reverse_nil,
    List.nil_append, List.singleton_append] at hr
  injection hr with h1 h2
  exact ⟨by
    have := congrArg List.reverse h2
    simpa using this, h1⟩

/-- Restatement of `a ++ '/' :: x` with the separator attached to the left
block, for overlap arguments. -/
theorem sep_left (a : List Char) (x : List Char) :
    a ++ '/' :: x = (a ++ ['/']) ++ x := by simp

/-! ### Where emitted paths live -/

theorem walkSub_tail :
    ∀ (root : String) (l : List FSTree), ∀ p ∈ walkSub root l,
      ∃ s, p.data = root.data ++ '/' :: s := by
  refine walkSub.induct
    (fun root cs => ∀ p ∈ walkDir root cs, ∃ s, p.data = root.data ++ '/' :: s)
    (fun root l => ∀ p ∈ walkSub root l, ∃ s, p.data = root.data ++ '/' :: s)
    ?_ ?_ ?_ ?_
  · intro root cs ih p hp
    rw [walkDir] at hp
    rcases List.mem_append.mp hp with h | h
    · rcases mem_filesHere h with ⟨n, -, rfl, -⟩
      exact ⟨n.data, pjoin_data root n⟩
    · exact ih p h
  · intro root p hp
    simp [walkSub] at hp
  · intro root name rest ih p hp
    rw [walkSub] at hp
    exact ih p hp
  · intro root n cs rest ih1 ih2 p hp
    rw [walkSub] at hp
    rcases List.mem_append.mp hp with h | h
    · by_cases hx : should_exclude (pjoin root n) = true
      · simp [hx] at h
      · simp only [Bool.not_eq_true] at hx
        rw [if_neg (by simp [hx])] at h
        rcases ih1 p h with ⟨s, hs⟩
        rw [pjoin_data] at hs
        exact ⟨n.data ++ '/' :: s, by rw [hs]; simp⟩
    · exact ih2 p h

theorem walkDir_tail (root : String) (cs : List FSTree) :
    ∀ p ∈ walkDir root cs, ∃ s, p.data = root.data ++ '/' :: s := by
  intro p hp
  rw [walkDir] at hp
  rcases List.mem_append.mp hp with h | h
  · rcases mem_filesHere h with ⟨n, -, rfl, -⟩
    exact ⟨n.data, pjoin_data root n⟩
  · exact walkSub_tail root cs p h

/-- Every path emitted by the subdirectory descent comes from some kept
directory child, below it. -/
theorem walkSub_shape (root : String) (l : List FSTree) (p : String)
    (hp : p ∈ walkSub root l) :
    ∃ n cs', FSTree.dir n cs' ∈ l ∧
      ∃ s, p.data = root.data ++ '/' :: (n.data ++ '/' :: s) := by
  induction l with
  | nil => simp [walkSub] at hp
  | cons t rest ih =>
    cases t with
    | file name =>
      rw [walkSub] at hp
      rcases ih hp with ⟨n, cs', hmem, hs⟩
      exact ⟨n, cs', List.mem_cons_of_mem _ hmem, hs⟩
    | dir n cs =>
      rw [walkSub] at hp
      rcases List.mem_append.mp hp with h | h
      · by_cases hx : should_exclude (pjoin root n) = true
        · simp [hx] at h
        · simp only [Bool.not_eq_true] at hx
          rw [if_neg (by simp [hx])] at h
          rcases walkDir_tail (pjoin root n) cs p h with ⟨s, hs⟩
          rw [pjoin_data] at hs
          exact ⟨n, cs, List.mem_cons_self _ _, s, by rw [hs]; simp⟩
      · rcases ih h with ⟨m, cs', hmem, hs⟩
        exact ⟨m, cs', List.mem_cons_of_mem _ hmem, hs⟩

/-! ### Emitted paths are pairwise distinct -/

theorem filesHere_nodup (root : String) {cs : List FSTree}
    (h : (cs.map childName).Nodup) : (filesHere root cs).Nodup := by
  unfold filesHere
  refine List.Nodup.filterMap ?_ (List.Nodup.of_map _ h)
  intro a a' b hb hb'
  cases a with
  | dir n c => simp at hb
  | file n =>
    cases a' with
    | dir n' c' => simp at hb'
    | file n' =>
      by_cases hx : should_exclude (pjoin root n) = true
      · simp [hx] at hb
      · simp only [Bool.not_eq_true] at hx
        simp only [hx, Bool.false_eq_true, if_false, Option.mem_some_iff] at hb
        by_cases hx' : should_exclude (pjoin root n') = true
        · simp [hx'] at hb'
        · simp only [Bool.not_eq_true] at hx'
          simp only [hx', Bool.false_eq_true, if_false, Option.mem_some_iff] at hb'
          have hjoin : pjoin root n = pjoin root n' := by rw [hb, hb']
          have hdata := congrArg String.data hjoin
          rw [pjoin_data, pjoin_data] at hdata
          have h2 := List.append_cancel_left hdata
          injection h2 with _ h3
          rw [String.ext h3]

theorem filesHere_walkSub_disj (root : String) {cs : List FSTree}
    (hwl : wfList cs) :
    List.Disjoint (filesHere root cs) (walkSub root cs) := by
  intro p hp1 hp2
  rcases mem_filesHere hp1 with ⟨f, hfmem, rfl, -⟩
  rcases walkSub_shape root cs _ hp2 with ⟨n, cs', hdmem, s, hs⟩
  rw [pjoin_data] at hs
  have hfd := cons_tail_inj hs
  have hslash : '/' ∈ f.data := by
    rw [hfd]
    exact List.mem_append.mpr (Or.inr (List.mem_cons_self _ _))
  have hwt := wfList_mem hwl hfmem
  rw [wfTree] at hwt
  exact hwt hslash

theorem walkSub_nodup :
    ∀ (root : String) (l : List FSTree),
      (l.map childName).Nodup → wfList l → (walkSub root l).Nodup := by
  refine walkSub.induct
    (fun root cs => (cs.map childName).Nodup → wfList cs → (walkDir root cs).Nodup)
    (fun root l => (l.map childName).Nodup → wfList l → (walkSub root l).Nodup)
    ?_ ?_ ?_ ?_
  · intro root cs ih hnames hwl
    rw [walkDir]
    exact (filesHere_nodup root hnames).append (ih hnames hwl)
      (filesHere_walkSub_disj root hwl)
  · intro root _ _
    simp [walkSub]
  · intro root name rest ih hnames hwl
    rw [walkSub]
    rw [List.map_cons] at hnames
    rw [wfList] at hwl
    exact ih (List.Nodup.of_cons hnames) hwl.2
  · intro root n cs rest ih1 ih2 hnames hwl
    rw [walkSub]
    rw [List.map_cons] at hnames
    rw [wfList] at hwl
    have hwt := hwl.1
    rw [wfTree] at hwt
    refine List.Nodup.append ?_ (ih2 (List.Nodup.of_cons hnames) hwl.2) ?_
    · by_cases hx : should_exclude (pjoin root n) = true
      · simp [hx]
      · simp only [Bool.not_eq_true] at hx
        rw [if_neg (by simp [hx])]
        exact ih1 hwt.2.1 hwt.2.2
    · intro p hp1 hp2
      by_cases hx : should_exclude (pjoin root n) = true
      · simp [hx] at hp1
      · simp only [Bool.not_eq_true] at hx
        rw [if_neg (by simp [hx])] at hp1
        rcases walkDir_tail (pjoin root n) cs p hp1 with ⟨s, hs⟩
        rw [pjoin_data] at hs
        have hs2 : p.data = root.data ++ '/' :: (n.data ++ '/' :: s) := by
          rw [hs]
          simp
        rcases walkSub_shape root rest p hp2 with ⟨m, cs'', hmmem, s', hs'⟩
        rw [hs2] at hs'
        have hmw := wfList_mem hwl.2 hmmem
        rw [wfTree] at hmw
        have hkey := key_split hwt.1 hmw.1 (cons_tail_inj hs')
        have hnm : n = m := String.ext hkey.1
        have hmm : m ∈ rest.map childName :=
          List.mem_map.mpr ⟨FSTree.dir m cs'', hmmem, rfl⟩
        rw [← hnm] at hmm
        rw [List.nodup_cons] at hnames
        exact hnames.1 hmm

theorem walkDir_nodup (root : String) {cs : List FSTree} (h : wfForest cs) :
    (walkDir root cs).Nodup := by
  rw [walkDir]
  exact (filesHere_nodup root h.1).append (walkSub_nodup root cs h.1 h.2)
    (filesHere_walkSub_disj root h.2)

/-! ### Per-root emission structure -/

theorem processRoot_shape (fs : FS) (inc : String) (p : String)
    (hp : p ∈ processRootNames fs inc) :
    p = inc ∨ ∃ s, p.data = inc.data ++ '/' :: s := by
  unfold processRootNames at hp
  cases hres : fs.resolve inc <;> rw [hres] at hp
  · by_cases hx : should_exclude inc = true
    · simp [hx] at hp
    · simp only [Bool.not_eq_true] at hx
      rw [if_neg (by simp [hx])] at hp
      exact Or.inl (List.mem_singleton.mp hp)
  · exact Or.inr (walkDir_tail inc _ p hp)
  · simp at hp

theorem processRoot_nodup (fs : FS) (inc : String)
    (hwf : ∀ r cs, fs.resolve r = Resolved.dir cs → wfForest cs) :
    (processRootNames fs inc).Nodup := by
  unfold processRootNames
  cases hres : fs.resolve inc with
  | file =>
    show (if should_exclude inc = true then ([] : List String) else [inc]).Nodup
    split
    · exact List.nodup_nil
    · exact List.nodup_singleton _
  | dir cs =>
    show (walkDir inc cs).Nodup
    exact walkDir_nodup inc (hwf inc cs hres)
  | missing =>
    show ([] : List String).Nodup
    exact List.nodup_nil

/-- Two root strings that cannot collide: distinct, and neither lies
strictly below the other (true of the fixed `includes` list). -/
def rootsSep (r1 r2 : String) : Prop :=
  r1 ≠ r2 ∧ startsL (r1 ++ "/").data r2.data = false ∧
    startsL (r2 ++ "/").data r1.data = false

theorem sep_startsL_of_below {r q : String} {s : List Char}
    (h : q.data = r.data ++ '/' :: s) : startsL (r ++ "/").data q.data = true := by
  apply (startsL_iff _ _).mpr
  refine ⟨s, ?_⟩
  rw [String.data_append]
  have hslash : "/".data = ['/'] := rfl
  rw [hslash, h]
  simp

theorem processRoot_disj (fs : FS) {r1 r2 : String} (hsep : rootsSep r1 r2) :
    List.Disjoint (processRootNames fs r1) (processRootNames fs r2) := by
  intro p hp1 hp2
  rcases processRoot_shape fs r1 p hp1 with rfl | ⟨s1, hs1⟩
  · rcases processRoot_shape fs r2 p hp2 with rfl | ⟨s2, hs2⟩
    · exact hsep.1 rfl
    · have hT := sep_startsL_of_below hs2
      rw [hsep.2.2] at hT
      exact Bool.false_ne_true hT
  · rcases processRoot_shape fs r2 p hp2 with rfl | ⟨s2, hs2⟩
    · have hT := sep_startsL_of_below hs1
      rw [hsep.2.1] at hT
      exact Bool.false_ne_true hT
    · have h12 : (r1.data ++ ['/']) ++ s1 = (r2.data ++ ['/']) ++ s2 := by
        rw [← sep_left, ← sep_left, ← hs1, ← hs2]
      rcases append_overlap _ _ _ _ h12 with ⟨t, ht⟩ | ⟨t, ht⟩
      · rcases List.eq_nil_or_concat' t with rfl | ⟨t', c, rfl⟩
        · rw [List.append_nil] at ht
          exact hsep.1 (String.ext (snoc_inj ht).1)
        · rw [← List.append_assoc] at ht
          have hsn := snoc_inj ht
          have hT : startsL (r1 ++ "/").data r2.data = true := by
            apply (startsL_iff _ _).mpr
            refine ⟨t', ?_⟩
            rw [String.data_append]
            have hslash : "/".data = ['/'] := rfl
            rw [hslash]
            exact hsn.1
          rw [hsep.2.1] at hT
          exact Bool.false_ne_true hT
      · rcases List.eq_nil_or_concat' t with rfl | ⟨t', c, rfl⟩
        · rw [List.append_nil] at ht
          exact hsep.1 (String.ext (snoc_inj ht).1).symm
        · rw [← List.append_assoc] at ht
          have hsn := snoc_inj ht
          have hT : startsL (r2 ++ "/").data r1.data = true := by
            apply (startsL_iff _ _).mpr
            refine ⟨t', ?_⟩
            rw [String.data_append]
            have hslash : "/".data = ['/'] := rfl
            rw [hslash]
            exact hsn.1
          rw [hsep.2.2] at hT
          exact Bool.false_ne_true hT

theorem mem_createZipNames {fs : FS} {incs : List String} {p : String}
    (hp : p ∈ createZipNames fs incs) :
    ∃ r ∈ incs, p ∈ processRootNames fs r := by
  induction incs with
  | nil => simp [createZipNames] at hp
  | cons inc rest ih =>
    rw [createZipNames] at hp
    rcases List.mem_append.mp hp with h | h
    · exact ⟨inc, List.mem_cons_self _ _, h⟩
    · rcases ih h with ⟨r, hr, hpr⟩
      exact ⟨r, List.mem_cons_of_mem _ hr, hpr⟩

theorem createZipNames_nodup (fs : FS) (incs : List String)
    (hwf : ∀ r cs, fs.resolve r = Resolved.dir cs → wfForest cs)
    (hsep : incs.Pairwise rootsSep) :
    (createZipNames fs incs).Nodup := by
  induction incs with
  | nil => simp [createZipNames]
  | cons inc rest ih =>
    rw [createZipNames]
    rw [List.pairwise_cons] at hsep
    refine (processRoot_nodup fs inc hwf).append (ih hsep.2) ?_
    intro p hp1 hp2
    rcases mem_createZipNames hp2 with ⟨r, hr, hpr⟩
    exact processRoot_disj fs (hsep.1 r hr) hp1 hpr

/-! ### Completeness: every reachable non-excluded file is emitted -/

theorem filesHere_mem_of {root f : String} {cs : List FSTree}
    (hmem : FSTree.file f ∈ cs) (hx : should_exclude (pjoin root f) = false) :
    pjoin root f ∈ filesHere root cs := by
  unfold filesHere
  refine List.mem_filterMap.mpr ⟨FSTree.file f, hmem, ?_⟩
  simp [hx]

theorem filesHere_cons_sub {root : String} {t : FSTree} {rest : List FSTree}
    {p : String} (h : p ∈ filesHere root rest) : p ∈ filesHere root (t :: rest) := by
  unfold filesHere at h ⊢
  rw [List.filterMap_cons]
  split
  · exact h
  · exact List.mem_cons_of_mem _ h

theorem filePathsL_tail :
    ∀ (root : String) (l : List FSTree), ∀ p ∈ filePathsL root l,
      ∃ s, p.data = root.data ++ '/' :: s := by
  refine filePathsL.induct
    (fun root t => ∀ p ∈ filePathsT root t, ∃ s, p.data = root.data ++ '/' :: s)
    (fun root l => ∀ p ∈ filePathsL root l, ∃ s, p.data = root.data ++ '/' :: s)
    ?_ ?_ ?_ ?_
  · intro root n p hp
    rw [filePathsT] at hp
    rcases List.mem_singleton.mp hp with rfl
    exact ⟨n.data, pjoin_data root n⟩
  · intro root name children ih p hp
    rw [filePathsT] at hp
    rcases ih p hp with ⟨s, hs⟩
    rw [pjoin_data] at hs
    exact ⟨name.data ++ '/' :: s, by rw [hs]; simp⟩
  · intro root p hp
    simp [filePathsL] at hp
  · intro root t ts ih1 ih2 p hp
    rw [filePathsL] at hp
    rcases List.mem_append.mp hp with h | h
    · exact ih1 p h
    · exact ih2 p h

theorem walkDir_complete :
    ∀ (root : String) (l : List FSTree), ∀ p ∈ filePathsL root l,
      should_exclude p = false → p ∈ walkDir root l := by
  refine walkDir.induct
    (fun root cs => ∀ p ∈ filePathsL root cs,
      should_exclude p = false → p ∈ walkDir root cs)
    (fun root l => ∀ p ∈ filePathsL root l,
      should_exclude p = false → p ∈ filesHere root l ∨ p ∈ walkSub root l)
    ?_ ?_ ?_ ?_
  · intro root cs ih p hp hx
    rw [walkDir]
    rcases ih p hp hx with h | h
    · exact List.mem_append.mpr (Or.inl h)
    · exact List.mem_append.mpr (Or.inr h)
  · intro root p hp
    simp [filePathsL] at hp
  · intro root name rest ih p hp hx
    rw [filePathsL, filePathsT] at hp
    rcases List.mem_append.mp hp with h | h
    · rcases List.mem_singleton.mp h with rfl
      exact Or.inl (filesHere_mem_of (List.mem_cons_self _ _) hx)
    · rcases ih p h hx with h' | h'
      · exact Or.inl (filesHere_cons_sub h')
      · refine Or.inr ?_
        rw [walkSub]
        exact h'
  · intro root n cs rest ih1 ih2 p hp hx
    rw [filePathsL, filePathsT] at hp
    rcases List.mem_append.mp hp with h | h
    · have hkeep : should_exclude (pjoin root n) = false := by
        by_contra hc
        rw [Bool.not_eq_false] at hc
        rcases filePathsL_tail (pjoin root n) cs p h with ⟨s, hs⟩
        have : should_exclude p = true :=
          should_exclude_mono hc ⟨[], '/' :: s, by rw [List.nil_append, ← hs]⟩
        rw [hx] at this
        exact Bool.false_ne_true this
      refine Or.inr ?_
      rw [walkSub]
      refine List.mem_append.mpr (Or.inl ?_)
      rw [if_neg (by simp [hkeep])]
      exact ih1 p h hx
    · rcases ih2 p h hx with h' | h'
      · exact Or.inl (filesHere_cons_sub h')
      · refine Or.inr ?_
        rw [walkSub]
        exact List.mem_append.mpr (Or.inr h')

theorem createZipNames_complete (fs : FS) (incs : List String) (p : String)
    (hp : p ∈ allFilePaths fs incs) (hx : should_exclude p = false) :
    p ∈ createZipNames fs incs := by
  induction incs with
  | nil => simp [allFilePaths] at hp
  | cons inc rest ih =>
    rw [allFilePaths] at hp
    rw [createZipNames]
    rcases List.mem_append.mp hp with h | h
    · refine List.mem_append.mpr (Or.inl ?_)
      unfold rootFilePaths at h
      unfold processRootNames
      cases hres : fs.resolve inc <;> rw [hres] at h
      · rcases List.mem_singleton.mp h with rfl
        rw [if_neg (by simp [hx])]
        exact List.mem_singleton.mpr rfl
      · exact walkDir_complete inc _ p h hx
      · simp at h
    · exact List.mem_append.mpr (Or.inr (ih h))

/-- C3: under a well-formed snapshot and non-overlapping roots, every
regular file reachable from the root list whose path is not excluded is
emitted exactly once, and every `zipf.write(path, path)` call stores the
file under an archive name equal to the very path used to locate it. -/
theorem emitted_exactly_once (fs : FS) (incs : List String)
    (hwf : ∀ r cs, fs.resolve r = Resolved.dir cs → wfForest cs)
    (hsep : incs.Pairwise rootsSep)
    (p : String) (hreach : p ∈ allFilePaths fs incs)
    (hexcl : should_exclude p = false) :
    (createZipNames fs incs).count p = 1 ∧
    ∀ q ∈ createZipPairs fs incs, q.2 = q.1 := by
  constructor
  · exact List.count_eq_one_of_mem (createZipNames_nodup fs incs hwf hsep)
      (createZipNames_complete fs incs p hreach hexcl)
  · intro q hq
    rcases List.mem_map.mp hq with ⟨x, -, rfl⟩
    rfl

/-- C3 witness: `server/index.ts` is reachable, not excluded, and counted
exactly once in the sample run. -/
theorem emitted_exactly_once_witness :
    (createZipNames sampleFS ["server"]).count "server/index.ts" = 1 ∧
    ∀ q ∈ createZipPairs sampleFS ["server"], q.2 = q.1 :=
  emitted_exactly_once sampleFS ["server"]
    (by
      intro r cs h
      simp only [sampleFS] at h
      by_cases hr : r = "server"
      · rw [if_pos hr] at h
        injection h with h'
        rw [← h']
        simp +decide [wfForest, wfList, wfTree, sampleTree, childName]
      · rw [if_neg hr] at h
        exact Resolved.noConfusion h)
    (by simp)
    "server/index.ts"
    (by simp +decide [allFilePaths, rootFilePaths, sampleFS, sampleTree,
          filePathsL, filePathsT, pjoin])
    (by decide)

end ServicePro
